import Mathlib

/-!
Shallow embedding of the research-writing aide in src/index.tsx.

Model-service calls are opaque oracles (an `Except Unit` value per call);
DOM state is modelled explicitly: the knowledge store is a list of
documents, the draft version store a list of strings, the editable draft
a tree of text nodes and highlight spans.
-/

set_option linter.unusedVariables false

namespace GraphRag

/-- JS String.prototype.indexOf, over character lists: the index of the
first occurrence of the needle, `none` when absent (an empty needle is
found at index 0, as in JS). -/
def firstIdx (needle : List Char) : List Char → Option Nat
  | [] => if needle.isPrefixOf [] then some 0 else none
  | c :: t =>
    if needle.isPrefixOf (c :: t) then some 0
    else (firstIdx needle t).map (fun i => i + 1)

/-- A whitespace character as JS String.prototype.trim strips it (the
forms that matter here). -/
def isWhitespaceChar (c : Char) : Bool :=
  c = ' ' || c = '\t' || c = '\n' || c = '\r'

/-- JS String.prototype.trim: strip leading and trailing whitespace. -/
def jsTrim (s : String) : String :=
  ⟨((s.data.dropWhile isWhitespaceChar).reverse.dropWhile isWhitespaceChar).reverse⟩

/-- JS String.prototype.includes. -/
def strIncludes (hay needle : String) : Bool :=
  (firstIdx needle.data hay.data).isSome

/-- JS String.prototype.replace with a plain-string pattern: replaces the
first occurrence only; returns the string unchanged when the pattern is
absent. -/
def replaceFirst (s pat repl : String) : String :=
  match firstIdx pat.data s.data with
  | none => s
  | some i => ⟨s.data.take i ++ repl.data ++ s.data.drop (i + pat.data.length)⟩

-- --- Knowledge store (src/index.tsx, interface KnowledgeSource) ---

/-- One ingested document, as stored in `knowledgeSources`. -/
structure KnowledgeSource where
  fileName : String
  author : String
  year : String
  summary : String
  entities : List String
  fullText : String
deriving DecidableEq, Repr

/-- The fields the extraction call returns (the JSON schema of
`analyzeAndStoreDocument`: author, year, summary, entities). -/
structure Extracted where
  author : String
  year : String
  summary : String
  entities : List String
deriving DecidableEq, Repr

/-- Outcome of one `analyzeAndStoreDocument` invocation: the new store and
chat state, the number of extraction calls issued, and whether the
invocation completed without throwing. -/
structure IngestResult where
  store : List KnowledgeSource
  chat : Option Nat
  calls : Nat
  ok : Bool
deriving Repr

/-- The document pushed on a successful extraction (src/index.tsx lines
160-167). -/
def mkDocument (fileName articleText : String) (e : Extracted) : KnowledgeSource :=
  { fileName := fileName, author := e.author, year := e.year,
    summary := e.summary, entities := e.entities, fullText := articleText }

/-- src/index.tsx `analyzeAndStoreDocument`: skip when the file name is
already stored; otherwise discard the chat session, issue the extraction
call, and push the parsed document on success.  The opaque model call and
its JSON parse are one oracle: `extractCall`. -/
def analyzeAndStoreDocument (store : List KnowledgeSource) (chat : Option Nat)
    (fileName articleText : String) (extractCall : Except Unit Extracted) : IngestResult :=
  if store.any (fun s => s.fileName == fileName) then
    { store := store, chat := chat, calls := 0, ok := true }
  else
    match extractCall with
    | .error _ => { store := store, chat := none, calls := 1, ok := false }
    | .ok e =>
      { store := store ++ [mkDocument fileName articleText e], chat := none,
        calls := 1, ok := true }

def msgEmptyArticle : String := "Please paste text into the text area or upload a file."

def msgIngestFailed : String := "An error occurred while building the knowledge base."

/-- Alert raised by `handleProcessArticle` when the document name is
already in the knowledge base. -/
def msgDuplicate (docName : String) : String :=
  "\x22" ++ docName ++ "\x22 has already been added to the knowledge base."

/-- Outcome of `handleProcessArticle`: store/chat state, extraction calls
issued, and the alert shown (if any). -/
structure ProcessResult where
  store : List KnowledgeSource
  chat : Option Nat
  calls : Nat
  alert : Option String
deriving Repr

/-- Generated name for pasted content (src/index.tsx line 188). -/
def pastedName (store : List KnowledgeSource) : String :=
  "Pasted Content " ++
    toString ((store.filter (fun s => "Pasted Content".isPrefixOf s.fileName)).length + 1)

/-- src/index.tsx `handleProcessArticle`: trims the pasted text, rejects
empty input with an alert before any call, rejects duplicate names with an
alert, and otherwise delegates to `analyzeAndStoreDocument`. -/
def handleProcessArticle (input currentFileName : String) (store : List KnowledgeSource)
    (chat : Option Nat) (extractCall : Except Unit Extracted) : ProcessResult :=
  let articleText := jsTrim input
  if articleText = "" then
    { store := store, chat := chat, calls := 0, alert := some msgEmptyArticle }
  else
    let docName := if currentFileName = "" then pastedName store else currentFileName
    if store.any (fun s => s.fileName == docName) then
      { store := store, chat := chat, calls := 0, alert := some (msgDuplicate docName) }
    else
      let r := analyzeAndStoreDocument store chat docName articleText extractCall
      { store := r.store, chat := r.chat, calls := r.calls,
        alert := if r.ok then none else some msgIngestFailed }

-- --- Review pipeline (src/index.tsx lines 296-417) ---

/-- The parsed outline-call response (JSON schema of the first detailed
stage: introduction plan, themes, conclusion plan). -/
structure Outline where
  introduction : String
  themes : List String
  conclusion : String
deriving Repr

/-- The outline rendering pushed as draft version 0 (src/index.tsx
line 382). -/
def outlineHtml (o : Outline) : String :=
  "<h3>Outline</h3><ul><li>Introduction</li><li>Body Paragraphs:<ul>" ++
    String.join (o.themes.map (fun t => "<li>" ++ t ++ "</li>")) ++
    "</ul></li><li>Conclusion</li></ul>"

/-- JS fullDraftParts.join of the accumulated section texts with
paragraph breaks. -/
def joinParts : List String → String
  | [] => ""
  | [p] => p
  | p :: ps => p ++ "\n\n" ++ joinParts ps

/-- One oracle per detailed-mode model call: the outline call, the
introduction call, the call for theme number i, and the conclusion call. -/
structure DetailedOracle where
  outlineRes : Except Unit Outline
  introRes : Except Unit String
  themeRes : Nat → Except Unit String
  conclusionRes : Except Unit String

/-- Pipeline state threaded through the detailed-mode stages:
`fullDraftParts`, `draftHistory`, and the number of model calls issued. -/
structure PipeState where
  parts : List String
  history : List String
  calls : Nat
deriving Repr

/-- The theme loop of generateDetailedReview (src/index.tsx lines
397-406): one call per theme, appending the cumulative concatenation as a
new draft version; a failed call aborts the loop. -/
def themesLoop (themeRes : Nat → Except Unit String) : Nat → Nat → PipeState → PipeState × Bool
  | _, 0, st => (st, true)
  | i, n + 1, st =>
    match themeRes i with
    | .error _ => ({ st with calls := st.calls + 1 }, false)
    | .ok t =>
      let parts := st.parts ++ [t]
      themesLoop themeRes (i + 1) n
        { parts := parts, history := st.history ++ [joinParts parts], calls := st.calls + 1 }

/-- src/index.tsx generateDetailedReview: outline, introduction, one call
per theme, conclusion; each completed stage appends one draft version, a
thrown call aborts the rest.  The Bool is true when no call failed. -/
def generateDetailedReview (o : DetailedOracle) : PipeState × Bool :=
  match o.outlineRes with
  | .error _ => ({ parts := [], history := [], calls := 1 }, false)
  | .ok outline =>
    let st0 : PipeState := { parts := [], history := [outlineHtml outline], calls := 1 }
    match o.introRes with
    | .error _ => ({ parts := st0.parts, history := st0.history, calls := 2 }, false)
    | .ok introText =>
      let parts1 := [introText]
      let st1 : PipeState :=
        { parts := parts1, history := st0.history ++ [joinParts parts1], calls := 2 }
      match themesLoop o.themeRes 0 outline.themes.length st1 with
      | (st2, false) => (st2, false)
      | (st2, true) =>
        match o.conclusionRes with
        | .error _ =>
          ({ parts := st2.parts, history := st2.history, calls := st2.calls + 1 }, false)
        | .ok conclusionText =>
          let parts3 := st2.parts ++ [conclusionText]
          ({ parts := parts3, history := st2.history ++ [joinParts parts3],
             calls := st2.calls + 1 }, true)

/-- src/index.tsx generateConciseReview: a single call whose text becomes
the sole draft version. -/
def generateConciseReview (conciseCall : Except Unit String) : PipeState × Bool :=
  match conciseCall with
  | .error _ => ({ parts := [], history := [], calls := 1 }, false)
  | .ok draft => ({ parts := [], history := [draft], calls := 1 }, true)

def msgReviewFailed : String := "An error occurred. Please check the console."

/-- Outcome of handleGenerateReview: the draft version store, the number
of model calls issued, the draft committed as final (none when the
pipeline aborted or never ran), and the alert shown. -/
structure ReviewResult where
  history : List String
  calls : Nat
  final : Option String
  alert : Option String
deriving Repr

/-- src/index.tsx handleGenerateReview: silently returns on an empty
trimmed topic; otherwise resets the draft store, runs the chosen mode, and
only on success commits the last version as the final draft (the catch
block skips the commit and alerts). -/
def handleGenerateReview (topic : String) (detailed : Bool) (o : DetailedOracle)
    (conciseCall : Except Unit String) : ReviewResult :=
  if jsTrim topic = "" then
    { history := [], calls := 0, final := none, alert := none }
  else
    let r := if detailed then generateDetailedReview o else generateConciseReview conciseCall
    if r.2 then
      { history := r.1.history, calls := r.1.calls,
        final := some (r.1.history.getLastD ""), alert := none }
    else
      { history := r.1.history, calls := r.1.calls, final := none,
        alert := some msgReviewFailed }

-- --- Draft version viewer (src/index.tsx renderDraftViewer) ---

/-- Button label for the draft version at a 0-based index (src/index.tsx
lines 437-443). -/
def versionLabel (len index : Nat) : String :=
  if index = 0 then "Outline"
  else if index = len - 1 then "Final"
  else "Step " ++ toString index

/-- src/index.tsx renderDraftViewer: one (label, active) pair per stored
version, in order; the last version is marked active. -/
def renderDraftViewer (history : List String) : List (String × Bool) :=
  if history.length = 0 then []
  else
    (List.range history.length).map
      (fun i => (versionLabel history.length i, i = history.length - 1))

-- --- Bibliography (src/index.tsx generateBibliography) ---

/-- The literal APA citation token built for a stored document. -/
def citationToken (s : KnowledgeSource) : String :=
  "(" ++ s.author ++ ", " ++ s.year ++ ")"

/-- The body of the forEach loop of generateBibliography: keep a document
when its citation token occurs in the final draft and its file name was
not collected yet. -/
def citedStep (finalDraft : String) (acc : List KnowledgeSource)
    (source : KnowledgeSource) : List KnowledgeSource :=
  if strIncludes finalDraft (citationToken source) then
    if acc.any (fun s => s.fileName == source.fileName) then acc else acc ++ [source]
  else acc

/-- The forEach loop of generateBibliography: collect documents whose
citation token occurs in the final draft, skipping file names already
collected. -/
def collectCited (store : List KnowledgeSource) (finalDraft : String) : List KnowledgeSource :=
  store.foldl (citedStep finalDraft) []

/-- JS toLowerCase over the characters of a string. -/
def lowerStr (s : String) : String :=
  ⟨s.data.map Char.toLower⟩

/-- JS String.prototype.endsWith via character lists. -/
def strEndsWith (s suffix : String) : Bool :=
  suffix.data.isSuffixOf s.data

/-- Drop the last n characters of a string. -/
def strDropRight (s : String) (n : Nat) : String :=
  ⟨s.data.take (s.data.length - n)⟩

/-- The title used in a reference entry: the file name with a trailing
.txt, .pdf or .md extension stripped case-insensitively (the regex
replace of src/index.tsx line 498). -/
def stripTitleExtension (name : String) : String :=
  let lower := lowerStr name
  if strEndsWith lower ".txt" || strEndsWith lower ".pdf" then strDropRight name 4
  else if strEndsWith lower ".md" then strDropRight name 3
  else name

/-- One rendered reference entry (src/index.tsx line 498). -/
def bibEntry (s : KnowledgeSource) : String :=
  s.author ++ ". (" ++ s.year ++ "). " ++ stripTitleExtension s.fileName ++ "."

/-- The sort comparator of generateBibliography, modelling
localeCompare ascending as lexicographic string order. -/
def authorLe (a b : KnowledgeSource) : Bool :=
  decide (a.author ≤ b.author)

/-- src/index.tsx generateBibliography: none models the hidden references
section (no cited source); otherwise the rendered entries, author-sorted. -/
def generateBibliography (store : List KnowledgeSource) (finalDraft : String) :
    Option (List String) :=
  let cited := collectCited store finalDraft
  if cited.length > 0 then some ((cited.mergeSort authorLe).map bibEntry)
  else none

-- --- Writing editor: text nodes and similarity highlights ---

/-- A node of the writing editor DOM as the similarity machinery sees it:
a text node, or a similarity-highlight span with its dataset (original
passage text and rewritten suggestion) and child nodes. -/
inductive ENode where
  | text (s : String)
  | mark (original suggestion : String) (children : List ENode)
deriving Repr

mutual

/-- textContent of one editor node. -/
def nodeText : ENode → String
  | .text s => s
  | .mark _ _ cs => nodesText cs

/-- textContent of a node list, in document order. -/
def nodesText : List ENode → String
  | [] => ""
  | n :: ns => nodeText n ++ nodesText ns

end

mutual

/-- Number of highlight spans in one node (itself included). -/
def markCountNode : ENode → Nat
  | .text _ => 0
  | .mark _ _ cs => 1 + markCountNodes cs

/-- Number of highlight spans in a node list. -/
def markCountNodes : List ENode → Nat
  | [] => 0
  | n :: ns => markCountNode n + markCountNodes ns

end

mutual

/-- Whether some single text node of the subtree contains the string
(the per-node indexOf of highlightText succeeding somewhere). -/
def nodeHas (find : String) : ENode → Bool
  | .text s => strIncludes s find
  | .mark _ _ cs => nodesHas find cs

/-- nodeHas over a node list. -/
def nodesHas (find : String) : List ENode → Bool
  | [] => false
  | n :: ns => nodeHas find n || nodesHas find ns

end

mutual

/-- TreeWalker step of highlightText on one node: the replacement node
list when the first text node containing the string lies in this subtree
(the node splits around the wrapped first occurrence), none otherwise. -/
def hlNode (find original suggestion : String) : ENode → Option (List ENode)
  | .text s =>
    match firstIdx find.data s.data with
    | some i =>
      some [ .text ⟨s.data.take i⟩,
             .mark original suggestion [.text ⟨(s.data.drop i).take find.data.length⟩],
             .text ⟨s.data.drop (i + find.data.length)⟩ ]
    | none => none
  | .mark o su cs =>
    match hlNodes find original suggestion cs with
    | some cs2 => some [.mark o su cs2]
    | none => none

/-- hlNode over a sibling list: the first subtree with a hit is rewritten,
the later siblings are kept. -/
def hlNodes (find original suggestion : String) : List ENode → Option (List ENode)
  | [] => none
  | n :: ns =>
    match hlNode find original suggestion n with
    | some repl => some (repl ++ ns)
    | none => (hlNodes find original suggestion ns).map (fun ns2 => n :: ns2)

end

/-- src/index.tsx highlightText: wrap the first within-text-node
occurrence in a highlight span carrying the original passage and the
rewritten suggestion; the editor is unchanged when no text node contains
the string. -/
def highlightText (find original suggestion : String) (editor : List ENode) : List ENode :=
  (hlNodes find original suggestion editor).getD editor

mutual

/-- DOM Node.normalize on one node: normalize the children of a span. -/
def normalizeNode : ENode → ENode
  | .text s => .text s
  | .mark o su cs => .mark o su (normalizeNodes cs)

/-- DOM Node.normalize on a node list: drop empty text nodes and merge
adjacent text nodes, recursively. -/
def normalizeNodes : List ENode → List ENode
  | [] => []
  | .text s :: rest =>
    if s = "" then normalizeNodes rest
    else
      match normalizeNodes rest with
      | .text t :: rest2 => .text (s ++ t) :: rest2
      | rest2 => .text s :: rest2
  | .mark o su cs :: rest => .mark o su (normalizeNodes cs) :: normalizeNodes rest

end

/-- dataset.suggestion of a node, with the JS fallback to the empty string
(a plain text node has no dataset). -/
def markSuggestion : ENode → String
  | .text _ => ""
  | .mark _ su _ => su

/-- src/index.tsx acceptSimilaritySuggestion: the active highlight span,
given with its left and right siblings, is replaced by a text node holding
its rewritten suggestion, and the editor is normalized. -/
def acceptSimilaritySuggestion (pre post : List ENode) (span : ENode) : List ENode :=
  normalizeNodes (pre ++ [.text (markSuggestion span)] ++ post)

/-- src/index.tsx dismissSimilaritySuggestion: the active highlight span
is replaced by a text node holding its own textContent, and the editor is
normalized. -/
def dismissSimilaritySuggestion (pre post : List ENode) (span : ENode) : List ENode :=
  normalizeNodes (pre ++ [.text (nodeText span)] ++ post)

/-- src/index.tsx removeHighlights: every highlight span is replaced by a
text node holding its textContent, then the editor is normalized. -/
def removeHighlights (editor : List ENode) : List ENode :=
  normalizeNodes (editor.map (fun n =>
    match n with
    | .mark _ _ cs => .text (nodesText cs)
    | .text s => .text s))

-- --- Proofreading suggestions (src/index.tsx lines 587-604) ---

/-- One proofreading suggestion as returned by the analysis call. -/
structure Suggestion where
  category : String
  issue : String
  suggestion : String
  explanation : String
deriving Repr

/-- src/index.tsx handleSuggestionClick: accepting replaces the first
occurrence of the issue text in the draft HTML with the suggestion wrapped
in strong tags; accepting and rejecting both remove the clicked suggestion
from the pending list. -/
def handleSuggestionClick (accept : Bool) (index : Nat)
    (suggestions : List Suggestion) (draftHtml : String) : String × List Suggestion :=
  match suggestions[index]? with
  | none => (draftHtml, suggestions)
  | some sug =>
    let draft2 :=
      if accept then
        replaceFirst draftHtml sug.issue ("<strong>" ++ sug.suggestion ++ "</strong>")
      else draftHtml
    (draft2, suggestions.eraseIdx index)

-- --- Similarity check (src/index.tsx handleSimilarityCheck) ---

/-- One similarity match as returned by the similarity call. -/
structure SimMatch where
  original_sentence : String
  similar_passage_from_source : String
  source_filename : String
  rewritten_suggestion : String
deriving Repr

def msgShortDraft : String := "Please write more text before checking for similarity."

def msgSimilarityFailed : String :=
  "An error occurred during the similarity check. Please try again."

def msgNoSimilarities : String := "No significant similarities found."

def msgFoundSimilarities (n : Nat) : String :=
  "Found " ++ toString n ++ " potential similarities. Click on the highlighted text to review."

/-- Outcome of handleSimilarityCheck: the editor content, the number of
similarity calls issued, and the alert shown. -/
structure SimResult where
  editor : List ENode
  calls : Nat
  alert : Option String
deriving Repr

/-- src/index.tsx handleSimilarityCheck: rejects a draft shorter than 50
trimmed characters before any call; otherwise clears old highlights,
issues one similarity call and wraps each returned match in order. -/
def handleSimilarityCheck (draftText : String) (editor : List ENode)
    (simCall : Except Unit (List SimMatch)) : SimResult :=
  if (jsTrim draftText).length < 50 then
    { editor := editor, calls := 0, alert := some msgShortDraft }
  else
    let cleared := removeHighlights editor
    match simCall with
    | .error _ => { editor := cleared, calls := 1, alert := some msgSimilarityFailed }
    | .ok results =>
      let editor2 := results.foldl
        (fun ed r =>
          highlightText r.original_sentence
            (r.similar_passage_from_source ++ " (from " ++ r.source_filename ++ ")")
            r.rewritten_suggestion ed)
        cleared
      { editor := editor2, calls := 1,
        alert := if results.length = 0 then some msgNoSimilarities
                 else some (msgFoundSimilarities results.length) }

-- --- Derived notions used by the specification theorems ---

/-- Strict textual extension: the first string is a proper prefix of the
second. -/
def strictExtension (a b : String) : Prop :=
  a.data <+: b.data ∧ a.data ≠ b.data

/-- The draft versions appended by the theme loop: one cumulative
concatenation per processed theme text. -/
def cumAppend (base : List String) : List String → List String
  | [] => []
  | t :: ts => joinParts (base ++ [t]) :: cumAppend (base ++ [t]) ts

/-- The cumulative draft versions of a successful detailed run: entry k
is the paragraph-break concatenation of the first k+1 section texts. -/
def cumulativeVersions (sections : List String) : List String :=
  (List.range sections.length).map (fun k => joinParts (sections.take (k + 1)))

-- --- Specification lemmas for firstIdx / strIncludes ---

theorem firstIdx_spec (needle : List Char) :
    ∀ (hay : List Char) (i : Nat), firstIdx needle hay = some i →
      needle <+: hay.drop i ∧ ∀ j, j < i → ¬ needle <+: hay.drop j := by
  intro hay
  induction hay with
  | nil =>
    intro i h
    unfold firstIdx at h
    split at h
    · rename_i hp
      cases h
      refine ⟨by simpa using List.isPrefixOf_iff_prefix.mp hp, ?_⟩
      intro j hj; omega
    · cases h
  | cons c t ih =>
    intro i h
    unfold firstIdx at h
    split at h
    · rename_i hp
      cases h
      refine ⟨by simpa using List.isPrefixOf_iff_prefix.mp hp, ?_⟩
      intro j hj; omega
    · rename_i hp
      cases hft : firstIdx needle t with
      | none => rw [hft] at h; simp at h
      | some k =>
        rw [hft] at h
        simp at h
        subst h
        obtain ⟨h1, h2⟩ := ih k hft
        constructor
        · exact h1
        · intro j hj
          cases j with
          | zero =>
            simp only [List.drop_zero]
            intro hc
            exact hp (List.isPrefixOf_iff_prefix.mpr hc)
          | succ j =>
            exact h2 j (by omega)

theorem firstIdx_none (needle : List Char) :
    ∀ (hay : List Char), firstIdx needle hay = none →
      ∀ j, ¬ needle <+: hay.drop j := by
  intro hay
  induction hay with
  | nil =>
    intro h j
    unfold firstIdx at h
    split at h
    · cases h
    · rename_i hp
      simp only [List.drop_nil]
      intro hc
      exact hp (List.isPrefixOf_iff_prefix.mpr hc)
  | cons c t ih =>
    intro h j
    unfold firstIdx at h
    split at h
    · cases h
    · rename_i hp
      cases hft : firstIdx needle t with
      | none =>
        cases j with
        | zero =>
          simp only [List.drop_zero]
          intro hc
          exact hp (List.isPrefixOf_iff_prefix.mpr hc)
        | succ j =>
          exact ih hft j
      | some k => rw [hft] at h; simp at h

/-- A found occurrence decomposes the haystack around the needle. -/
theorem prefix_drop_decomp {needle hay : List Char} {i : Nat}
    (h : needle <+: hay.drop i) :
    hay = hay.take i ++ needle ++ hay.drop (i + needle.length) ∧
    hay.drop (i + needle.length) = (hay.drop i).drop needle.length := by
  obtain ⟨rest, hrest⟩ := h
  have hdd : (hay.drop i).drop needle.length = hay.drop (i + needle.length) := by
    simp [List.drop_drop, Nat.add_comm]
  have hr : hay.drop (i + needle.length) = rest := by
    rw [← hdd, ← hrest]
    exact List.drop_left needle rest
  constructor
  · conv_lhs => rw [← List.take_append_drop i hay]
    rw [← hrest, hr, List.append_assoc]
  · exact hdd.symm

-- --- Claims C2 and C10: ingestion ---

/-- C2: for every store state and every ingestion attempt whose identifier
already equals the identifier of some stored Document, the ingestion is a
no-op on the Knowledge Store: the store (hence its length and contents) is
unchanged and no extraction call is made. -/
theorem ingest_duplicate_noop (store : List KnowledgeSource) (chat : Option Nat)
    (fileName articleText : String) (extractCall : Except Unit Extracted)
    (h : ∃ s ∈ store, s.fileName = fileName) :
    (analyzeAndStoreDocument store chat fileName articleText extractCall).store = store ∧
    (analyzeAndStoreDocument store chat fileName articleText extractCall).calls = 0 := by
  have hany : store.any (fun s => s.fileName == fileName) = true := by
    obtain ⟨s, hs, he⟩ := h
    exact List.any_eq_true.mpr ⟨s, hs, by simp [he]⟩
  simp [analyzeAndStoreDocument, hany]

theorem ingest_duplicate_noop_witness :
    (analyzeAndStoreDocument [⟨"a.txt", "Smith", "2020", "s", [], "body"⟩] (some 0)
        "a.txt" "other" (.ok ⟨"Jones", "2021", "t", []⟩)).store =
      [⟨"a.txt", "Smith", "2020", "s", [], "body"⟩] ∧
    (analyzeAndStoreDocument [⟨"a.txt", "Smith", "2020", "s", [], "body"⟩] (some 0)
        "a.txt" "other" (.ok ⟨"Jones", "2021", "t", []⟩)).calls = 0 :=
  ingest_duplicate_noop [⟨"a.txt", "Smith", "2020", "s", [], "body"⟩] (some 0)
    "a.txt" "other" (.ok ⟨"Jones", "2021", "t", []⟩)
    ⟨⟨"a.txt", "Smith", "2020", "s", [], "body"⟩, by simp, rfl⟩

/-- C10: for every non-duplicate ingestion attempt the chat session is
discarded regardless of the extraction outcome (it is set to `none` before
the call is issued), exactly one extraction call is made, and on a failed
call the store is unchanged (no partial Document is appended), while on a
successful call exactly the parsed document is appended. -/
theorem ingest_fresh_resets_chat (store : List KnowledgeSource) (chat : Option Nat)
    (fileName articleText : String) (extractCall : Except Unit Extracted)
    (h : ∀ s ∈ store, s.fileName ≠ fileName) :
    (analyzeAndStoreDocument store chat fileName articleText extractCall).chat = none ∧
    (analyzeAndStoreDocument store chat fileName articleText extractCall).calls = 1 ∧
    (∀ e, extractCall = .error e →
      (analyzeAndStoreDocument store chat fileName articleText extractCall).store = store ∧
      (analyzeAndStoreDocument store chat fileName articleText extractCall).ok = false) ∧
    (∀ ex, extractCall = .ok ex →
      (analyzeAndStoreDocument store chat fileName articleText extractCall).store =
        store ++ [mkDocument fileName articleText ex]) := by
  have hany : store.any (fun s => s.fileName == fileName) = false := by
    simp only [List.any_eq_false]
    intro s hs
    simp [h s hs]
  cases extractCall with
  | error e => simp [analyzeAndStoreDocument, hany]
  | ok ex => simp [analyzeAndStoreDocument, hany]

theorem ingest_fresh_resets_chat_witness :
    (analyzeAndStoreDocument [⟨"a.txt", "Smith", "2020", "s", [], "body"⟩] (some 3)
        "b.txt" "text" (.error ())).chat = none ∧
    (analyzeAndStoreDocument [⟨"a.txt", "Smith", "2020", "s", [], "body"⟩] (some 3)
        "b.txt" "text" (.error ())).calls = 1 ∧
    (analyzeAndStoreDocument [⟨"a.txt", "Smith", "2020", "s", [], "body"⟩] (some 3)
        "b.txt" "text" (.error ())).store = [⟨"a.txt", "Smith", "2020", "s", [], "body"⟩] ∧
    (analyzeAndStoreDocument [⟨"a.txt", "Smith", "2020", "s", [], "body"⟩] (some 3)
        "b.txt" "text" (.error ())).ok = false := by
  have h := ingest_fresh_resets_chat [⟨"a.txt", "Smith", "2020", "s", [], "body"⟩] (some 3)
    "b.txt" "text" (.error ()) (by intro s hs; simp at hs; subst hs; decide)
  exact ⟨h.1, h.2.1, (h.2.2.1 () rfl).1, (h.2.2.1 () rfl).2⟩


/-- JS includes agrees with substring decomposition. -/
theorem strIncludes_iff (hay needle : String) :
    strIncludes hay needle = true ↔ ∃ a b : String, hay = a ++ needle ++ b := by
  constructor
  · intro h
    unfold strIncludes at h
    cases hf : firstIdx needle.data hay.data with
    | none => rw [hf] at h; simp at h
    | some i =>
      obtain ⟨h1, _⟩ := firstIdx_spec needle.data hay.data i hf
      obtain ⟨hdec, _⟩ := prefix_drop_decomp h1
      refine ⟨⟨hay.data.take i⟩, ⟨hay.data.drop (i + needle.data.length)⟩, ?_⟩
      apply String.ext
      simpa [String.data_append] using hdec
  · rintro ⟨a, b, hab⟩
    unfold strIncludes
    cases hf : firstIdx needle.data hay.data with
    | some i => rfl
    | none =>
      exfalso
      apply firstIdx_none needle.data hay.data hf a.data.length
      rw [hab]
      simp only [String.data_append]
      rw [List.append_assoc, List.drop_left]
      exact List.prefix_append needle.data b.data

-- --- Claim C8: draft version viewer ---

theorem renderDraftViewer_getD (history : List String) (i : Nat) (hi : i < history.length) :
    (renderDraftViewer history).getD i ("", false) =
      (versionLabel history.length i, decide (i = history.length - 1)) := by
  have hne : ¬ history.length = 0 := by omega
  unfold renderDraftViewer
  rw [if_neg hne, List.getD_eq_getElem?_getD, List.getElem?_map, List.getElem?_range hi]
  rfl

/-- C8 counterexample: a single-version store, as concise mode produces,
labels its only (hence last) entry Outline, not Final, refuting the claim
for every non-empty store. -/
theorem draft_viewer_single_entry_counterexample :
    renderDraftViewer ["v"] = [("Outline", true)] ∧
    ((renderDraftViewer ["v"]).getLastD ("", false)).1 ≠ "Final" := by
  constructor
  · rfl
  · show ("Outline" : String) ≠ "Final"
    decide

/-- C8 (amended): for a store with at least two versions the first entry
is labeled Outline, the last Final, every other entry by its index (its
1-based step number counting the outline as step 0), and exactly one
entry — the last — is marked active.  A single-entry store instead labels
its only entry Outline. -/
theorem draft_viewer_labels (history : List String) (h2 : 2 ≤ history.length) :
    (renderDraftViewer history).length = history.length ∧
    ((renderDraftViewer history).getD 0 ("", false)).1 = "Outline" ∧
    ((renderDraftViewer history).getD (history.length - 1) ("", false)).1 = "Final" ∧
    (∀ i, 0 < i → i < history.length - 1 →
      ((renderDraftViewer history).getD i ("", false)).1 = "Step " ++ toString i) ∧
    (renderDraftViewer history).countP (fun e => e.2) = 1 ∧
    (∀ i, i < history.length →
      (((renderDraftViewer history).getD i ("", false)).2 = true ↔
        i = history.length - 1)) := by
  have hne : ¬ history.length = 0 := by omega
  refine ⟨?_, ?_, ?_, ?_, ?_, ?_⟩
  · unfold renderDraftViewer
    rw [if_neg hne]
    simp
  · rw [renderDraftViewer_getD history 0 (by omega)]
    simp [versionLabel]
  · rw [renderDraftViewer_getD history (history.length - 1) (by omega)]
    unfold versionLabel
    rw [if_neg (by omega), if_pos rfl]
  · intro i hi0 hi1
    rw [renderDraftViewer_getD history i (by omega)]
    unfold versionLabel
    rw [if_neg (by omega), if_neg (by omega)]
  · unfold renderDraftViewer
    rw [if_neg hne, List.countP_map]
    obtain ⟨m, hm⟩ : ∃ m, history.length = m + 1 := ⟨history.length - 1, by omega⟩
    rw [hm, List.range_succ, List.countP_append]
    have hz : List.countP
        ((fun e => e.2) ∘ fun i => (versionLabel (m + 1) i, decide (i = m + 1 - 1)))
        (List.range m) = 0 := by
      rw [List.countP_eq_zero]
      intro a ha
      have ham : a < m := List.mem_range.mp ha
      simp
      omega
    rw [hz]
    simp
  · intro i hi
    rw [renderDraftViewer_getD history i hi]
    simp

theorem draft_viewer_labels_witness :
    (renderDraftViewer ["a", "b", "c"]).length = 3 ∧
    ((renderDraftViewer ["a", "b", "c"]).getD 0 ("", false)).1 = "Outline" ∧
    ((renderDraftViewer ["a", "b", "c"]).getD 2 ("", false)).1 = "Final" ∧
    ((renderDraftViewer ["a", "b", "c"]).getD 1 ("", false)).1 = "Step " ++ toString 1 ∧
    (renderDraftViewer ["a", "b", "c"]).countP (fun e => e.2) = 1 := by
  have h := draft_viewer_labels ["a", "b", "c"] (by simp)
  exact ⟨h.1, h.2.1, h.2.2.1, h.2.2.2.1 1 (by omega) (by simp), h.2.2.2.2.1⟩

-- --- Claim C9: empty-input rejection ---

/-- C9 counterexample: a whitespace-only topic (empty after trimming) is
rejected without any user-facing message — the handler returns silently —
refuting the claim that every empty-input rejection carries one. -/
theorem empty_topic_no_message :
    (handleGenerateReview " " true
        ⟨.error (), .error (), fun _ => .error (), .error ()⟩ (.error ())).alert = none ∧
    (handleGenerateReview " " true
        ⟨.error (), .error (), fun _ => .error (), .error ()⟩ (.error ())).calls = 0 := by
  constructor <;> rfl

/-- C9 (amended): every empty invocation is rejected locally before any
model call — empty trimmed article text and a short similarity draft with
an alert, an empty trimmed review topic silently (no message). -/
theorem empty_input_rejected (input currentFileName : String)
    (store : List KnowledgeSource) (chat : Option Nat)
    (extractCall : Except Unit Extracted) (topic : String) (detailed : Bool)
    (o : DetailedOracle) (conciseCall : Except Unit String)
    (draftText : String) (editor : List ENode)
    (simCall : Except Unit (List SimMatch)) :
    (jsTrim input = "" →
      (handleProcessArticle input currentFileName store chat extractCall).calls = 0 ∧
      (handleProcessArticle input currentFileName store chat extractCall).alert =
        some msgEmptyArticle ∧
      (handleProcessArticle input currentFileName store chat extractCall).store = store) ∧
    (jsTrim topic = "" →
      (handleGenerateReview topic detailed o conciseCall).calls = 0 ∧
      (handleGenerateReview topic detailed o conciseCall).alert = none ∧
      (handleGenerateReview topic detailed o conciseCall).final = none) ∧
    ((jsTrim draftText).length < 50 →
      (handleSimilarityCheck draftText editor simCall).calls = 0 ∧
      (handleSimilarityCheck draftText editor simCall).alert = some msgShortDraft ∧
      (handleSimilarityCheck draftText editor simCall).editor = editor) := by
  refine ⟨?_, ?_, ?_⟩
  · intro h
    simp [handleProcessArticle, h]
  · intro h
    simp [handleGenerateReview, h]
  · intro h
    simp [handleSimilarityCheck, h]

theorem empty_input_rejected_witness :
    (handleProcessArticle "  " "f" [] none (.error ())).calls = 0 ∧
    (handleGenerateReview "" false ⟨.error (), .error (), fun _ => .error (), .error ()⟩
      (.error ())).calls = 0 ∧
    (handleSimilarityCheck "short" [] (.error ())).calls = 0 := by
  have h := empty_input_rejected "  " "f" [] none (.error ()) "" false
    ⟨.error (), .error (), fun _ => .error (), .error ()⟩ (.error ())
    "short" [] (.error ())
  exact ⟨(h.1 rfl).1, (h.2.1 rfl).1, (h.2.2 (by decide)).1⟩

-- --- Claim C4: a failing stage aborts the detailed pipeline ---

/-- Call-count invariant of the theme loop: while the loop succeeds each
call appends exactly one version; a failing call adds one call and no
version and stops the loop. -/
theorem themesLoop_calls (themeRes : Nat → Except Unit String) :
    ∀ (n i : Nat) (st : PipeState) (c : Nat), st.calls = st.history.length + c →
      ((themesLoop themeRes i n st).2 = true →
        (themesLoop themeRes i n st).1.calls =
          (themesLoop themeRes i n st).1.history.length + c) ∧
      ((themesLoop themeRes i n st).2 = false →
        (themesLoop themeRes i n st).1.calls =
          (themesLoop themeRes i n st).1.history.length + c + 1) := by
  intro n
  induction n with
  | zero =>
    intro i st c h
    constructor
    · intro _
      simpa [themesLoop] using h
    · intro hf
      simp [themesLoop] at hf
  | succ n ih =>
    intro i st c h
    cases hres : themeRes i with
    | error e =>
      simp only [themesLoop, hres]
      constructor
      · intro ht
        simp at ht
      · intro _
        simp
        omega
    | ok t =>
      simp only [themesLoop, hres]
      exact ih (i + 1)
        { parts := st.parts ++ [t],
          history := st.history ++ [joinParts (st.parts ++ [t])],
          calls := st.calls + 1 } c (by simp [h]; omega)

/-- Call-count invariant of the whole detailed pipeline: on success the
number of calls equals the number of appended versions; on failure it is
one more (the failing stage called once and appended nothing, no later
stage called at all). -/
theorem generateDetailedReview_calls (o : DetailedOracle) :
    ((generateDetailedReview o).2 = true →
      (generateDetailedReview o).1.calls = (generateDetailedReview o).1.history.length) ∧
    ((generateDetailedReview o).2 = false →
      (generateDetailedReview o).1.calls =
        (generateDetailedReview o).1.history.length + 1) := by
  unfold generateDetailedReview
  cases ho : o.outlineRes with
  | error e => simp
  | ok outline =>
    cases hi : o.introRes with
    | error e => simp
    | ok introText =>
      simp only []
      have hinv := themesLoop_calls o.themeRes outline.themes.length 0
        { parts := [introText],
          history := [outlineHtml outline] ++ [joinParts [introText]],
          calls := 2 } 0 (by simp)
      cases hlp : themesLoop o.themeRes 0 outline.themes.length
          { parts := [introText],
            history := [outlineHtml outline] ++ [joinParts [introText]],
            calls := 2 } with
      | mk st2 ok2 =>
        rw [hlp] at hinv
        cases ok2 with
        | false =>
          simp only [hlp]
          constructor
          · intro ht
            simp at ht
          · intro _
            exact hinv.2 rfl
        | true =>
          simp only [hlp]
          have h2 : st2.calls = st2.history.length := by simpa using hinv.1 rfl
          cases hc : o.conclusionRes with
          | error e =>
            constructor
            · intro ht
              simp at ht
            · intro _
              simp
              omega
          | ok conclusionText =>
            constructor
            · intro _
              simp
              omega
            · intro hf
              simp at hf

/-- C4: for every detailed-mode run in which some stage call fails (the
pipeline flag is false exactly then), the pipeline aborts: no result is
committed as the final review, every draft version appended by completed
stages remains in the store, and the total number of calls issued is the
number of completed stages plus the single failing call — so no later
stage issued a call. -/
theorem detailed_failure_aborts (topic : String) (o : DetailedOracle)
    (conciseCall : Except Unit String) (ht : ¬ jsTrim topic = "")
    (hf : (generateDetailedReview o).2 = false) :
    (handleGenerateReview topic true o conciseCall).final = none ∧
    (handleGenerateReview topic true o conciseCall).history =
      (generateDetailedReview o).1.history ∧
    (handleGenerateReview topic true o conciseCall).calls =
      (handleGenerateReview topic true o conciseCall).history.length + 1 ∧
    (handleGenerateReview topic true o conciseCall).alert = some msgReviewFailed := by
  have hc := (generateDetailedReview_calls o).2 hf
  simp only [handleGenerateReview, if_neg ht, if_true, hf, Bool.false_eq_true, if_false]
  exact ⟨trivial, trivial, hc, trivial⟩

theorem detailed_failure_aborts_witness :
    (handleGenerateReview "t" true
        ⟨.ok ⟨"ip", ["A", "B"], "cp"⟩, .ok "I",
          fun i => if i = 0 then .ok "T0" else .error (), .ok "C"⟩ (.ok "c")).final = none ∧
    (handleGenerateReview "t" true
        ⟨.ok ⟨"ip", ["A", "B"], "cp"⟩, .ok "I",
          fun i => if i = 0 then .ok "T0" else .error (), .ok "C"⟩ (.ok "c")).calls =
      (handleGenerateReview "t" true
        ⟨.ok ⟨"ip", ["A", "B"], "cp"⟩, .ok "I",
          fun i => if i = 0 then .ok "T0" else .error (), .ok "C"⟩ (.ok "c")).history.length
        + 1 := by
  have h := detailed_failure_aborts "t"
    ⟨.ok ⟨"ip", ["A", "B"], "cp"⟩, .ok "I",
      fun i => if i = 0 then .ok "T0" else .error (), .ok "C"⟩ (.ok "c")
    (by decide) (by decide)
  exact ⟨h.1, h.2.2.1⟩

-- --- Claim C1: detailed-mode draft versions ---

theorem joinParts_cons_cons (p p2 : String) (ps : List String) :
    joinParts (p :: p2 :: ps) = p ++ "\n\n" ++ joinParts (p2 :: ps) := rfl

/-- Joining after appending one more part appends it after a paragraph
break. -/
theorem joinParts_append (ps : List String) (q : String) (h : ps ≠ []) :
    joinParts (ps ++ [q]) = joinParts ps ++ "\n\n" ++ q := by
  induction ps with
  | nil => cases h rfl
  | cons p ps ih =>
    cases ps with
    | nil => rfl
    | cons p2 ps2 =>
      have ih2 := ih (List.cons_ne_nil p2 ps2)
      calc joinParts ((p :: p2 :: ps2) ++ [q])
          = p ++ "\n\n" ++ joinParts ((p2 :: ps2) ++ [q]) := by
            rw [List.cons_append]
            exact joinParts_cons_cons p p2 (ps2 ++ [q])
        _ = p ++ "\n\n" ++ (joinParts (p2 :: ps2) ++ "\n\n" ++ q) := by rw [ih2]
        _ = (p ++ "\n\n" ++ joinParts (p2 :: ps2)) ++ "\n\n" ++ q := by
            simp [String.append_assoc]
        _ = joinParts (p :: p2 :: ps2) ++ "\n\n" ++ q := by
            rw [joinParts_cons_cons]

/-- A run of the theme loop in which every call succeeds: one call and one
cumulative version per theme. -/
theorem themesLoop_success (themeRes : Nat → Except Unit String) (tf : Nat → String) :
    ∀ (n i : Nat) (st : PipeState),
      (∀ j, j < n → themeRes (i + j) = .ok (tf (i + j))) →
      themesLoop themeRes i n st =
        ({ parts := st.parts ++ (List.range n).map (fun j => tf (i + j)),
           history := st.history ++
             cumAppend st.parts ((List.range n).map (fun j => tf (i + j))),
           calls := st.calls + n }, true) := by
  intro n
  induction n with
  | zero =>
    intro i st h
    simp [themesLoop, cumAppend]
  | succ n ih =>
    intro i st h
    have h0 : themeRes i = .ok (tf i) := by simpa using h 0 (by omega)
    have hrange : (List.range (n + 1)).map (fun j => tf (i + j)) =
        tf i :: (List.range n).map (fun j => tf (i + 1 + j)) := by
      rw [List.range_succ_eq_map, List.map_cons, List.map_map]
      have h1 : tf (i + 0) = tf i := by rw [Nat.add_zero]
      have h2 : (List.range n).map ((fun j => tf (i + j)) ∘ Nat.succ) =
          (List.range n).map (fun j => tf (i + 1 + j)) := by
        apply List.map_congr_left
        intro a ha
        show tf (i + (a + 1)) = tf (i + 1 + a)
        congr 1
        omega
      rw [h1, h2]
    simp only [themesLoop, h0]
    rw [ih (i + 1)
      { parts := st.parts ++ [tf i],
        history := st.history ++ [joinParts (st.parts ++ [tf i])],
        calls := st.calls + 1 }
      (fun j hj => by
        have hh := h (j + 1) (by omega)
        rw [show i + (j + 1) = i + 1 + j by omega] at hh
        exact hh)]
    rw [hrange]
    simp only [cumAppend]
    rw [← List.append_cons st.parts (tf i)]
    rw [← List.append_cons st.history (joinParts (st.parts ++ [tf i]))]
    have hcalls : st.calls + 1 + n = st.calls + (n + 1) := by omega
    rw [hcalls]

/-- The theme-loop versions are the cumulative joins of growing take
fronts. -/
theorem cumAppend_eq_map :
    ∀ (ts base : List String), cumAppend base ts =
      (List.range ts.length).map (fun k => joinParts (base ++ ts.take (k + 1))) := by
  intro ts
  induction ts with
  | nil =>
    intro base
    simp [cumAppend]
  | cons t ts ih =>
    intro base
    rw [cumAppend, ih (base ++ [t])]
    rw [List.length_cons, List.range_succ_eq_map, List.map_cons, List.map_map]
    have h1 : joinParts (base ++ (t :: ts).take (0 + 1)) = joinParts (base ++ [t]) := by
      rw [List.take_succ_cons, List.take_zero]
    have h2 : (List.range ts.length).map
        ((fun k => joinParts (base ++ (t :: ts).take (k + 1))) ∘ Nat.succ) =
        (List.range ts.length).map (fun k => joinParts (base ++ [t] ++ ts.take (k + 1))) := by
      apply List.map_congr_left
      intro a ha
      show joinParts (base ++ (t :: ts).take (a + 1 + 1)) = joinParts (base ++ [t] ++ ts.take (a + 1))
      rw [List.take_succ_cons, List.append_cons base t]
    rw [h1, h2]

/-- Splitting the cumulative version list of intro :: themes ++ conclusion
into the introduction version, the theme versions and the final version. -/
theorem cumulativeVersions_decomp (b c : String) (T : List String) :
    cumulativeVersions (b :: (T ++ [c])) =
      joinParts [b] :: (cumAppend [b] T ++ [joinParts (b :: (T ++ [c]))]) := by
  unfold cumulativeVersions
  have hlen : (b :: (T ++ [c])).length = T.length + 1 + 1 := by simp
  rw [hlen, List.range_succ_eq_map, List.map_cons, List.map_map]
  have hhead : joinParts ((b :: (T ++ [c])).take (0 + 1)) = joinParts [b] := by
    rw [List.take_succ_cons, List.take_zero]
  have htail : (List.range (T.length + 1)).map
      ((fun k => joinParts ((b :: (T ++ [c])).take (k + 1))) ∘ Nat.succ) =
      cumAppend [b] T ++ [joinParts (b :: (T ++ [c]))] := by
    rw [List.range_succ, List.map_append]
    have hmid : (List.range T.length).map
        ((fun k => joinParts ((b :: (T ++ [c])).take (k + 1))) ∘ Nat.succ) =
        cumAppend [b] T := by
      rw [cumAppend_eq_map]
      apply List.map_congr_left
      intro a ha
      have haT : a < T.length := List.mem_range.mp ha
      show joinParts ((b :: (T ++ [c])).take (a + 1 + 1)) = joinParts ([b] ++ T.take (a + 1))
      rw [List.take_succ_cons, List.take_append_of_le_length (by omega)]
      rfl
    have hlast : List.map
        ((fun k => joinParts ((b :: (T ++ [c])).take (k + 1))) ∘ Nat.succ) [T.length] =
        [joinParts (b :: (T ++ [c]))] := by
      rw [List.map_cons, List.map_nil]
      show [joinParts ((b :: (T ++ [c])).take (T.length + 1 + 1))] = _
      rw [List.take_succ_cons, List.take_of_length_le (by simp)]
    rw [hmid, hlast]
  rw [hhead, htail]

theorem cumulativeVersions_getD (S : List String) (k : Nat) (hk : k < S.length) :
    (cumulativeVersions S).getD k "" = joinParts (S.take (k + 1)) := by
  unfold cumulativeVersions
  rw [List.getD_eq_getElem?_getD, List.getElem?_map, List.getElem?_range hk]
  rfl

/-- Adding one more section strictly extends the joined text. -/
theorem joinParts_take_strict (S : List String) (k : Nat)
    (h1 : 1 ≤ k) (h2 : k < S.length) :
    strictExtension (joinParts (S.take k)) (joinParts (S.take (k + 1))) := by
  have hget : S[k]? = some (S.getD k "") := by
    cases hx : S[k]? with
    | none =>
      rw [List.getElem?_eq_none_iff] at hx
      omega
    | some v =>
      rw [List.getD_eq_getElem?_getD, hx]
      rfl
  have htake : S.take (k + 1) = S.take k ++ [S.getD k ""] := by
    rw [List.take_succ, hget]
    rfl
  have hne : S.take k ≠ [] := by
    intro hnil
    have hlt := List.length_take k S
    rw [hnil] at hlt
    simp only [List.length_nil] at hlt
    rw [Nat.min_def] at hlt
    split at hlt <;> omega
  rw [htake, joinParts_append _ _ hne]
  constructor
  · rw [String.data_append, String.data_append, List.append_assoc]
    exact List.prefix_append _ _
  · intro heq
    have hlen := congrArg List.length heq
    rw [String.data_append, String.data_append, List.length_append,
      List.length_append] at hlen
    have hnl : ("\n\n" : String).data.length = 2 := rfl
    omega

/-- A fully successful detailed run, in closed form: the outline
rendering, then the cumulative versions of
introduction :: theme texts ++ [conclusion], with one call per stage. -/
theorem generateDetailedReview_success (o : DetailedOracle) (outline : Outline)
    (introText conclusionText : String) (tf : Nat → String)
    (ho : o.outlineRes = .ok outline) (hi : o.introRes = .ok introText)
    (hth : ∀ j, j < outline.themes.length → o.themeRes j = .ok (tf j))
    (hc : o.conclusionRes = .ok conclusionText) :
    generateDetailedReview o =
      ({ parts := introText :: ((List.range outline.themes.length).map tf ++ [conclusionText]),
         history := outlineHtml outline ::
           cumulativeVersions
             (introText :: ((List.range outline.themes.length).map tf ++ [conclusionText])),
         calls := outline.themes.length + 3 }, true) := by
  have hmap0 : (List.range outline.themes.length).map (fun j => tf (0 + j)) =
      (List.range outline.themes.length).map tf := by
    apply List.map_congr_left
    intro a ha
    rw [Nat.zero_add]
  unfold generateDetailedReview
  rw [ho, hi]
  simp only []
  rw [themesLoop_success o.themeRes tf outline.themes.length 0
    { parts := [introText],
      history := [outlineHtml outline] ++ [joinParts [introText]],
      calls := 2 }
    (fun j hj => by simpa using hth j (by omega))]
  simp only [hmap0]
  rw [hc]
  rw [cumulativeVersions_decomp introText conclusionText
    ((List.range outline.themes.length).map tf)]
  simp only [Prod.mk.injEq, PipeState.mk.injEq]
  refine ⟨⟨by simp, ?_, by omega⟩, trivial⟩
  simp [List.append_assoc]

/-- C1 (amended): a detailed-mode run whose outline call returns N themes
and whose stage calls all succeed appends exactly N+3 draft versions, in
order: the outline rendering, the introduction, N cumulative theme bodies
and the conclusion (version i for 1 ≤ i ≤ N+2 is the paragraph-break
concatenation of the first i section texts); every version from index 2 on
strictly textually extends its predecessor.  Version 1, the introduction,
replaces the outline rendering rather than extending it. -/
theorem detailed_versions_spec (o : DetailedOracle) (outline : Outline)
    (introText conclusionText : String) (tf : Nat → String)
    (ho : o.outlineRes = .ok outline) (hi : o.introRes = .ok introText)
    (hth : ∀ j, j < outline.themes.length → o.themeRes j = .ok (tf j))
    (hc : o.conclusionRes = .ok conclusionText) :
    (generateDetailedReview o).2 = true ∧
    (generateDetailedReview o).1.history.length = outline.themes.length + 3 ∧
    (generateDetailedReview o).1.history.getD 0 "" = outlineHtml outline ∧
    (∀ i, 1 ≤ i → i ≤ outline.themes.length + 2 →
      (generateDetailedReview o).1.history.getD i "" =
        joinParts ((introText :: ((List.range outline.themes.length).map tf
          ++ [conclusionText])).take i)) ∧
    (∀ i, 2 ≤ i → i ≤ outline.themes.length + 2 →
      strictExtension ((generateDetailedReview o).1.history.getD (i - 1) "")
        ((generateDetailedReview o).1.history.getD i "")) := by
  have hgen := generateDetailedReview_success o outline introText conclusionText tf ho hi hth hc
  have hSlen : (introText :: ((List.range outline.themes.length).map tf
      ++ [conclusionText])).length = outline.themes.length + 2 := by
    simp
  have hgetD : ∀ i, 1 ≤ i → i ≤ outline.themes.length + 2 →
      (generateDetailedReview o).1.history.getD i "" =
        joinParts ((introText :: ((List.range outline.themes.length).map tf
          ++ [conclusionText])).take i) := by
    intro i hi1 hi2
    rw [hgen]
    cases i with
    | zero => omega
    | succ j =>
      rw [List.getD_cons_succ]
      exact cumulativeVersions_getD _ j (by rw [hSlen]; omega)
  refine ⟨by rw [hgen], ?_, by rw [hgen]; rfl, hgetD, ?_⟩
  · rw [hgen]
    simp [cumulativeVersions]
  · intro i hi2 hiN
    have hprev := hgetD (i - 1) (by omega) (by omega)
    have hcur := hgetD i (by omega) (by omega)
    rw [hprev, hcur]
    have hform : i = (i - 1) + 1 := by omega
    rw [hform]
    exact joinParts_take_strict _ (i - 1) (by omega) (by rw [hSlen]; omega)

theorem detailed_versions_spec_witness :
    (generateDetailedReview
      ⟨.ok ⟨"ip", ["A", "B"], "cp"⟩, .ok "I",
        fun i => .ok (if i = 0 then "T0" else "T1"), .ok "C"⟩).2 = true ∧
    (generateDetailedReview
      ⟨.ok ⟨"ip", ["A", "B"], "cp"⟩, .ok "I",
        fun i => .ok (if i = 0 then "T0" else "T1"), .ok "C"⟩).1.history.length = 5 ∧
    strictExtension
      ((generateDetailedReview
        ⟨.ok ⟨"ip", ["A", "B"], "cp"⟩, .ok "I",
          fun i => .ok (if i = 0 then "T0" else "T1"), .ok "C"⟩).1.history.getD 2 "")
      ((generateDetailedReview
        ⟨.ok ⟨"ip", ["A", "B"], "cp"⟩, .ok "I",
          fun i => .ok (if i = 0 then "T0" else "T1"), .ok "C"⟩).1.history.getD 3 "") := by
  have h := detailed_versions_spec
    ⟨.ok ⟨"ip", ["A", "B"], "cp"⟩, .ok "I",
      fun i => .ok (if i = 0 then "T0" else "T1"), .ok "C"⟩
    ⟨"ip", ["A", "B"], "cp"⟩ "I" "C" (fun i => if i = 0 then "T0" else "T1")
    rfl rfl (fun j hj => rfl) rfl
  refine ⟨h.1, ?_, ?_⟩
  · have := h.2.1
    simpa using this
  · have := h.2.2.2.2 3 (by omega) (by simp)
    simpa using this

/-- C1 counterexample: in a fully successful one-theme run, draft version
1 (the introduction text) is not a textual extension of draft version 0
(the outline rendering): the outline HTML is not a prefix of the
introduction.  So the claim fails at i = 1. -/
theorem detailed_versions_counterexample :
    (generateDetailedReview
      ⟨.ok ⟨"ip", ["A"], "cp"⟩, .ok "Hello", fun _ => .ok "B", .ok "C"⟩).2 = true ∧
    (generateDetailedReview
      ⟨.ok ⟨"ip", ["A"], "cp"⟩, .ok "Hello", fun _ => .ok "B", .ok "C"⟩).1.history.getD 0 ""
      = outlineHtml ⟨"ip", ["A"], "cp"⟩ ∧
    (generateDetailedReview
      ⟨.ok ⟨"ip", ["A"], "cp"⟩, .ok "Hello", fun _ => .ok "B", .ok "C"⟩).1.history.getD 1 ""
      = "Hello" ∧
    ¬ strictExtension
      ((generateDetailedReview
        ⟨.ok ⟨"ip", ["A"], "cp"⟩, .ok "Hello", fun _ => .ok "B", .ok "C"⟩).1.history.getD 0 "")
      ((generateDetailedReview
        ⟨.ok ⟨"ip", ["A"], "cp"⟩, .ok "Hello", fun _ => .ok "B", .ok "C"⟩).1.history.getD 1 "") := by
  refine ⟨rfl, rfl, rfl, ?_⟩
  intro hext
  have hlen := hext.1.length_le
  revert hlen
  decide

-- --- Claim C3: bibliography ---

/-- The collecting fold of generateBibliography: membership and
duplicate-freeness, for a store and an accumulator with disjoint,
duplicate-free file names. -/
theorem collectCited_fold (finalDraft : String) :
    ∀ (store acc : List KnowledgeSource),
      store.Pairwise (fun a b => a.fileName ≠ b.fileName) →
      (∀ s ∈ store, ∀ t ∈ acc, s.fileName ≠ t.fileName) →
      acc.Pairwise (fun a b => a.fileName ≠ b.fileName) →
      (∀ s, s ∈ store.foldl (citedStep finalDraft) acc ↔
        (s ∈ acc ∨ (s ∈ store ∧ strIncludes finalDraft (citationToken s) = true))) ∧
      (store.foldl (citedStep finalDraft) acc).Pairwise
        (fun a b => a.fileName ≠ b.fileName) := by
  intro store
  induction store with
  | nil =>
    intro acc h1 h2 h3
    constructor
    · intro s
      simp
    · simpa using h3
  | cons source rest ih =>
    intro acc h1 h2 h3
    have h1rest : rest.Pairwise (fun a b => a.fileName ≠ b.fileName) :=
      (List.pairwise_cons.mp h1).2
    have h1head : ∀ b ∈ rest, source.fileName ≠ b.fileName :=
      (List.pairwise_cons.mp h1).1
    by_cases hinc : strIncludes finalDraft (citationToken source) = true
    · have hany : acc.any (fun s2 => s2.fileName == source.fileName) = false := by
        rw [List.any_eq_false]
        intro t ht
        have hne := h2 source (by simp) t ht
        simp only [beq_iff_eq]
        exact fun h => hne h.symm
      have hstep : citedStep finalDraft acc source = acc ++ [source] := by
        unfold citedStep
        simp [hinc, hany]
      rw [List.foldl_cons, hstep]
      have h2new : ∀ s ∈ rest, ∀ t ∈ acc ++ [source], s.fileName ≠ t.fileName := by
        intro s hs t ht
        rcases List.mem_append.mp ht with hta | hts
        · exact h2 s (by simp [hs]) t hta
        · have : t = source := by simpa using hts
          subst this
          exact (h1head s hs).symm
      have h3new : (acc ++ [source]).Pairwise (fun a b => a.fileName ≠ b.fileName) := by
        rw [List.pairwise_append]
        refine ⟨h3, by simp, ?_⟩
        intro a ha t htb
        have hts : t = source := by simpa using htb
        rw [hts]
        exact (h2 source (by simp) a ha).symm
      obtain ⟨hmem, hpw⟩ := ih (acc ++ [source]) h1rest h2new h3new
      refine ⟨?_, hpw⟩
      intro s
      rw [hmem s]
      constructor
      · rintro (hacc | ⟨hrest, hincs⟩)
        · rcases List.mem_append.mp hacc with h | h
          · exact Or.inl h
          · have : s = source := by simpa using h
            subst this
            exact Or.inr ⟨by simp, hinc⟩
        · exact Or.inr ⟨by simp [hrest], hincs⟩
      · rintro (hacc | ⟨hmem2, hincs⟩)
        · exact Or.inl (List.mem_append.mpr (Or.inl hacc))
        · rcases List.mem_cons.mp hmem2 with hsrc | hrest
          · subst hsrc
            exact Or.inl (List.mem_append.mpr (Or.inr (by simp)))
          · exact Or.inr ⟨hrest, hincs⟩
    · have hstep : citedStep finalDraft acc source = acc := by
        unfold citedStep
        simp [hinc]
      rw [List.foldl_cons, hstep]
      have h2new : ∀ s ∈ rest, ∀ t ∈ acc, s.fileName ≠ t.fileName := by
        intro s hs t ht
        exact h2 s (by simp [hs]) t ht
      obtain ⟨hmem, hpw⟩ := ih acc h1rest h2new h3
      refine ⟨?_, hpw⟩
      intro s
      rw [hmem s]
      constructor
      · rintro (hacc | ⟨hrest, hincs⟩)
        · exact Or.inl hacc
        · exact Or.inr ⟨by simp [hrest], hincs⟩
      · rintro (hacc | ⟨hmem2, hincs⟩)
        · exact Or.inl hacc
        · rcases List.mem_cons.mp hmem2 with hsrc | hrest
          · subst hsrc
            exact absurd hincs hinc
          · exact Or.inr ⟨hrest, hincs⟩

/-- Membership in the collected citation list, for duplicate-free
stores. -/
theorem collectCited_mem (store : List KnowledgeSource) (finalDraft : String)
    (hstore : store.Pairwise (fun a b => a.fileName ≠ b.fileName)) :
    (∀ s, s ∈ collectCited store finalDraft ↔
      (s ∈ store ∧ strIncludes finalDraft (citationToken s) = true)) ∧
    (collectCited store finalDraft).Pairwise (fun a b => a.fileName ≠ b.fileName) := by
  have h := collectCited_fold finalDraft store [] hstore (by simp) (by simp)
  unfold collectCited
  refine ⟨?_, h.2⟩
  intro s
  rw [h.1 s]
  simp

theorem authorLe_trans (a b c : KnowledgeSource) :
    authorLe a b = true → authorLe b c = true → authorLe a c = true := by
  unfold authorLe
  simp only [decide_eq_true_eq]
  exact le_trans

theorem authorLe_total (a b : KnowledgeSource) :
    (authorLe a b || authorLe b a) = true := by
  unfold authorLe
  rcases le_total a.author b.author with h | h <;> simp [h]

/-- C3: for a Knowledge Store with pairwise-distinct identifiers, the
bibliography shows an entry for a Document iff the literal token
"(Author, Year)" built from it occurs as a substring of the final draft;
entries are rendered from a list sorted ascending by author in which no
identifier appears twice; when no token occurs the section is hidden
(none) rather than rendered empty. -/
theorem bibliography_spec (store : List KnowledgeSource) (finalDraft : String)
    (hstore : store.Pairwise (fun a b => a.fileName ≠ b.fileName)) :
    (∀ s, s ∈ (collectCited store finalDraft).mergeSort authorLe ↔
      (s ∈ store ∧ ∃ a b : String, finalDraft = a ++ citationToken s ++ b)) ∧
    ((collectCited store finalDraft).mergeSort authorLe).Sorted
      (fun a b => a.author ≤ b.author) ∧
    ((collectCited store finalDraft).mergeSort authorLe).Pairwise
      (fun a b => a.fileName ≠ b.fileName) ∧
    (generateBibliography store finalDraft = none ↔
      ∀ s ∈ store, ¬ ∃ a b : String, finalDraft = a ++ citationToken s ++ b) ∧
    (collectCited store finalDraft ≠ [] →
      generateBibliography store finalDraft =
        some (((collectCited store finalDraft).mergeSort authorLe).map bibEntry)) := by
  obtain ⟨hmem, hpw⟩ := collectCited_mem store finalDraft hstore
  have hperm := List.mergeSort_perm (collectCited store finalDraft) authorLe
  refine ⟨?_, ?_, ?_, ?_, ?_⟩
  · intro s
    rw [hperm.mem_iff, hmem s, strIncludes_iff]
  · have hs := List.sorted_mergeSort authorLe_trans authorLe_total
      (collectCited store finalDraft)
    exact hs.imp (fun h => by simpa [authorLe] using h)
  · exact (hperm.pairwise_iff (fun h heq => h heq.symm)).mpr hpw
  · unfold generateBibliography
    constructor
    · intro hnone s hs hex
      have hincs : strIncludes finalDraft (citationToken s) = true :=
        (strIncludes_iff finalDraft (citationToken s)).mpr hex
      have : s ∈ collectCited store finalDraft := (hmem s).mpr ⟨hs, hincs⟩
      have hlen : 0 < (collectCited store finalDraft).length :=
        List.length_pos.mpr (List.ne_nil_of_mem this)
      rw [if_pos hlen] at hnone
      cases hnone
    · intro hall
      have hnil : collectCited store finalDraft = [] := by
        rw [List.eq_nil_iff_forall_not_mem]
        intro s hs
        obtain ⟨hsst, hincs⟩ := (hmem s).mp hs
        exact hall s hsst ((strIncludes_iff finalDraft (citationToken s)).mp hincs)
      rw [hnil]
      rfl
  · intro hne
    unfold generateBibliography
    rw [if_pos (List.length_pos.mpr hne)]

theorem bibliography_spec_witness :
    (⟨"a.pdf", "Chen", "2019", "s", [], "f"⟩ : KnowledgeSource) ∈
      (collectCited
        [⟨"b.txt", "Lopez", "2020", "s", [], "f"⟩, ⟨"a.pdf", "Chen", "2019", "s", [], "f"⟩]
        "x (Chen, 2019) y").mergeSort authorLe ∧
    generateBibliography
      [⟨"b.txt", "Lopez", "2020", "s", [], "f"⟩, ⟨"a.pdf", "Chen", "2019", "s", [], "f"⟩]
      "x (Chen, 2019) y" = some ["Chen. (2019). a."] := by
  have h := bibliography_spec
    [⟨"b.txt", "Lopez", "2020", "s", [], "f"⟩, ⟨"a.pdf", "Chen", "2019", "s", [], "f"⟩]
    "x (Chen, 2019) y" (by decide)
  constructor
  · refine (h.1 _).mpr ⟨by simp, "x ", " y", ?_⟩
    decide
  · have hc : collectCited
        [⟨"b.txt", "Lopez", "2020", "s", [], "f"⟩, ⟨"a.pdf", "Chen", "2019", "s", [], "f"⟩]
        "x (Chen, 2019) y" = [⟨"a.pdf", "Chen", "2019", "s", [], "f"⟩] := by decide
    have hne : collectCited
        [⟨"b.txt", "Lopez", "2020", "s", [], "f"⟩, ⟨"a.pdf", "Chen", "2019", "s", [], "f"⟩]
        "x (Chen, 2019) y" ≠ [] := by
      rw [hc]
      simp
    have h2 := h.2.2.2.2 hne
    rw [h2, hc]
    have hms : ([(⟨"a.pdf", "Chen", "2019", "s", [], "f"⟩ : KnowledgeSource)]).mergeSort
        authorLe = [⟨"a.pdf", "Chen", "2019", "s", [], "f"⟩] :=
      List.perm_singleton.mp (List.mergeSort_perm _ authorLe)
    rw [hms]
    decide

-- --- Claims C5 and C6: similarity highlights in the editor ---

theorem str_empty_append (s : String) : "" ++ s = s := by
  apply String.ext
  rw [String.data_append]
  rfl

theorem str_append_empty (s : String) : s ++ "" = s := by
  apply String.ext
  rw [String.data_append]
  simp

theorem nodesText_append (xs ys : List ENode) :
    nodesText (xs ++ ys) = nodesText xs ++ nodesText ys := by
  induction xs with
  | nil =>
    rw [List.nil_append]
    show nodesText ys = "" ++ nodesText ys
    rw [str_empty_append]
  | cons n ns ih =>
    rw [List.cons_append]
    show nodeText n ++ nodesText (ns ++ ys) = (nodeText n ++ nodesText ns) ++ nodesText ys
    rw [ih, String.append_assoc]

theorem markCountNodes_append (xs ys : List ENode) :
    markCountNodes (xs ++ ys) = markCountNodes xs + markCountNodes ys := by
  induction xs with
  | nil =>
    rw [List.nil_append]
    show markCountNodes ys = 0 + markCountNodes ys
    omega
  | cons n ns ih =>
    rw [List.cons_append]
    show markCountNode n + markCountNodes (ns ++ ys) =
      (markCountNode n + markCountNodes ns) + markCountNodes ys
    rw [ih]
    omega

theorem nodesText_normalizeNodes :
    ∀ ns : List ENode, nodesText (normalizeNodes ns) = nodesText ns
  | [] => by rw [normalizeNodes]
  | .text s :: rest => by
    have ih := nodesText_normalizeNodes rest
    rw [normalizeNodes]
    by_cases hs : s = ""
    · rw [if_pos hs, ih, hs]
      show nodesText rest = "" ++ nodesText rest
      rw [str_empty_append]
    · rw [if_neg hs]
      cases hR : normalizeNodes rest with
      | nil =>
        rw [hR] at ih
        show s ++ "" = s ++ nodesText rest
        rw [← ih]
        rfl
      | cons m rest2 =>
        cases m with
        | text t =>
          rw [hR] at ih
          show (s ++ t) ++ nodesText rest2 = s ++ nodesText rest
          rw [← ih]
          show (s ++ t) ++ nodesText rest2 = s ++ (t ++ nodesText rest2)
          rw [String.append_assoc]
        | mark o2 su2 cs2 =>
          rw [hR] at ih
          show s ++ nodesText (ENode.mark o2 su2 cs2 :: rest2) = s ++ nodesText rest
          rw [ih]
  | .mark o su cs :: rest => by
    have ih := nodesText_normalizeNodes rest
    have ihc := nodesText_normalizeNodes cs
    rw [normalizeNodes]
    show nodesText (normalizeNodes cs) ++ nodesText (normalizeNodes rest) =
      nodesText cs ++ nodesText rest
    rw [ih, ihc]

theorem markCountNodes_normalizeNodes :
    ∀ ns : List ENode, markCountNodes (normalizeNodes ns) = markCountNodes ns
  | [] => by rw [normalizeNodes]
  | .text s :: rest => by
    have ih := markCountNodes_normalizeNodes rest
    rw [normalizeNodes]
    by_cases hs : s = ""
    · rw [if_pos hs, ih]
      show markCountNodes rest = 0 + markCountNodes rest
      omega
    · rw [if_neg hs]
      cases hR : normalizeNodes rest with
      | nil =>
        rw [hR] at ih
        show 0 + markCountNodes ([] : List ENode) = 0 + markCountNodes rest
        rw [ih]
      | cons m rest2 =>
        cases m with
        | text t =>
          rw [hR] at ih
          have ih2 : 0 + markCountNodes rest2 = markCountNodes rest := ih
          show 0 + markCountNodes rest2 = 0 + markCountNodes rest
          omega
        | mark o2 su2 cs2 =>
          rw [hR] at ih
          show 0 + markCountNodes (ENode.mark o2 su2 cs2 :: rest2) = 0 + markCountNodes rest
          rw [ih]
  | .mark o su cs :: rest => by
    have ih := markCountNodes_normalizeNodes rest
    have ihc := markCountNodes_normalizeNodes cs
    rw [normalizeNodes]
    show (1 + markCountNodes (normalizeNodes cs)) + markCountNodes (normalizeNodes rest) =
      (1 + markCountNodes cs) + markCountNodes rest
    rw [ih, ihc]

/-- C6: accepting a highlighted similarity region replaces it with exactly
its attached rewritten suggestion as plain text and removes all markup of
the region; dismissing it leaves the editor text exactly unchanged and
also removes the region.  Both are stated against the surrounding sibling
context of the span. -/
theorem similarity_accept_dismiss_spec (pre post cs : List ENode)
    (original suggestion : String) :
    nodesText (acceptSimilaritySuggestion pre post (.mark original suggestion cs)) =
      nodesText pre ++ suggestion ++ nodesText post ∧
    markCountNodes (acceptSimilaritySuggestion pre post (.mark original suggestion cs)) =
      markCountNodes pre + markCountNodes post ∧
    nodesText (dismissSimilaritySuggestion pre post (.mark original suggestion cs)) =
      nodesText (pre ++ [.mark original suggestion cs] ++ post) ∧
    markCountNodes (dismissSimilaritySuggestion pre post (.mark original suggestion cs)) =
      markCountNodes pre + markCountNodes post := by
  unfold acceptSimilaritySuggestion dismissSimilaritySuggestion
  refine ⟨?_, ?_, ?_, ?_⟩
  · rw [nodesText_normalizeNodes, nodesText_append, nodesText_append]
    show nodesText pre ++ (suggestion ++ "") ++ nodesText post = _
    rw [str_append_empty]
  · rw [markCountNodes_normalizeNodes, markCountNodes_append, markCountNodes_append]
    show (markCountNodes pre + (0 + 0)) + markCountNodes post = _
    omega
  · rw [nodesText_normalizeNodes, nodesText_append, nodesText_append,
      nodesText_append, nodesText_append]
    show nodesText pre ++ (nodesText cs ++ "") ++ nodesText post =
      nodesText pre ++ (nodesText cs ++ "") ++ nodesText post
    rfl
  · rw [markCountNodes_normalizeNodes, markCountNodes_append, markCountNodes_append]
    show (markCountNodes pre + (0 + 0)) + markCountNodes post = _
    omega

mutual

/-- The walker finds nothing in a subtree exactly when no single text node
of it contains the string. -/
theorem hlNode_none (find original suggestion : String) :
    ∀ n : ENode, hlNode find original suggestion n = none ↔ nodeHas find n = false
  | .text s => by
    unfold hlNode nodeHas strIncludes
    cases hf : firstIdx find.data s.data with
    | some i => simp
    | none => simp
  | .mark o su cs => by
    have ih := hlNodes_none find original suggestion cs
    unfold hlNode nodeHas
    cases hc : hlNodes find original suggestion cs with
    | some cs2 =>
      rw [hc] at ih
      simp at ih
      simp [ih]
    | none =>
      rw [hc] at ih
      simp at ih
      simp [ih]

/-- hlNode_none over a sibling list. -/
theorem hlNodes_none (find original suggestion : String) :
    ∀ ns : List ENode, hlNodes find original suggestion ns = none ↔ nodesHas find ns = false
  | [] => by
    unfold hlNodes nodesHas
    simp
  | n :: ns => by
    have ihn := hlNode_none find original suggestion n
    have ihs := hlNodes_none find original suggestion ns
    unfold hlNodes nodesHas
    cases hn : hlNode find original suggestion n with
    | some repl =>
      rw [hn] at ihn
      simp at ihn
      simp [ihn]
    | none =>
      rw [hn] at ihn
      simp at ihn
      cases hs2 : hlNodes find original suggestion ns with
      | some ns3 =>
        rw [hs2] at ihs
        simp at ihs
        simp [ihn, ihs]
      | none =>
        rw [hs2] at ihs
        simp at ihs
        simp [ihn, ihs]

end

mutual

/-- A successful wrap inside one subtree preserves its text content and
adds exactly one highlight span. -/
theorem hlNode_some (find original suggestion : String) :
    ∀ (n : ENode) (repl : List ENode), hlNode find original suggestion n = some repl →
      nodesText repl = nodeText n ∧ markCountNodes repl = markCountNode n + 1
  | .text s, repl => by
    intro h
    unfold hlNode at h
    cases hf : firstIdx find.data s.data with
    | none => rw [hf] at h; cases h
    | some i =>
      rw [hf] at h
      cases h
      obtain ⟨hpre, _⟩ := firstIdx_spec find.data s.data i hf
      obtain ⟨hdec, _⟩ := prefix_drop_decomp hpre
      obtain ⟨rest, hrest⟩ := hpre
      have hmid : (s.data.drop i).take find.data.length = find.data := by
        rw [← hrest]
        exact List.take_left find.data rest
      constructor
      · show (⟨s.data.take i⟩ : String) ++
          (((⟨(s.data.drop i).take find.data.length⟩ : String) ++ "") ++
            ((⟨s.data.drop (i + find.data.length)⟩ : String) ++ "")) = s
        rw [str_append_empty, str_append_empty]
        apply String.ext
        rw [String.data_append, String.data_append]
        show s.data.take i ++ ((s.data.drop i).take find.data.length ++
          s.data.drop (i + find.data.length)) = s.data
        rw [hmid, ← List.append_assoc, ← hdec]
      · rfl
  | .mark o su cs, repl => by
    intro h
    unfold hlNode at h
    cases hc : hlNodes find original suggestion cs with
    | none => rw [hc] at h; cases h
    | some cs2 =>
      rw [hc] at h
      cases h
      obtain ⟨ht, hm⟩ := hlNodes_some find original suggestion cs cs2 hc
      constructor
      · show nodesText cs2 ++ "" = nodesText cs
        rw [str_append_empty, ht]
      · show (1 + markCountNodes cs2) + 0 = (1 + markCountNodes cs) + 1
        omega

/-- hlNode_some over a sibling list. -/
theorem hlNodes_some (find original suggestion : String) :
    ∀ (ns ns2 : List ENode), hlNodes find original suggestion ns = some ns2 →
      nodesText ns2 = nodesText ns ∧ markCountNodes ns2 = markCountNodes ns + 1
  | [], ns2 => by
    intro h
    unfold hlNodes at h
    cases h
  | n :: ns, ns2 => by
    intro h
    unfold hlNodes at h
    cases hn : hlNode find original suggestion n with
    | some repl =>
      rw [hn] at h
      cases h
      obtain ⟨ht, hm⟩ := hlNode_some find original suggestion n repl hn
      constructor
      · rw [nodesText_append, ht]
        rfl
      · rw [markCountNodes_append, hm]
        show (markCountNode n + 1) + markCountNodes ns =
          (markCountNode n + markCountNodes ns) + 1
        omega
    | none =>
      rw [hn] at h
      cases hs2 : hlNodes find original suggestion ns with
      | none => rw [hs2] at h; cases h
      | some ns3 =>
        rw [hs2] at h
        cases h
        obtain ⟨ht, hm⟩ := hlNodes_some find original suggestion ns ns3 hs2
        constructor
        · show nodeText n ++ nodesText ns3 = nodeText n ++ nodesText ns
          rw [ht]
        · show markCountNode n + markCountNodes ns3 =
            (markCountNode n + markCountNodes ns) + 1
          omega

end

/-- A successful walk decomposes the sibling list: every subtree strictly
before the rewritten one contains no hit. -/
theorem hlNodes_decomp (find original suggestion : String) :
    ∀ (ns ns2 : List ENode), hlNodes find original suggestion ns = some ns2 →
      ∃ pre n post repl, ns = pre ++ n :: post ∧ nodesHas find pre = false ∧
        hlNode find original suggestion n = some repl ∧ ns2 = pre ++ repl ++ post := by
  intro ns
  induction ns with
  | nil =>
    intro ns2 h
    unfold hlNodes at h
    cases h
  | cons n ns ih =>
    intro ns2 h
    unfold hlNodes at h
    cases hn : hlNode find original suggestion n with
    | some repl =>
      rw [hn] at h
      cases h
      exact ⟨[], n, ns, repl, rfl, rfl, hn, by simp⟩
    | none =>
      rw [hn] at h
      cases hs2 : hlNodes find original suggestion ns with
      | none => rw [hs2] at h; cases h
      | some ns3 =>
        rw [hs2] at h
        cases h
        obtain ⟨pre, m, post, repl, heq, hpre, hm, hres⟩ := ih ns3 hs2
        refine ⟨n :: pre, m, post, repl, by rw [heq]; rfl, ?_, hm, by rw [hres]; rfl⟩
        have hnh : nodeHas find n = false := (hlNode_none find original suggestion n).mp hn
        show (nodeHas find n || nodesHas find pre) = false
        rw [hnh, hpre]
        rfl

/-- The wrap of a hit inside a single text node: the node splits at the
first within-node occurrence, and the new span wraps exactly the matched
substring (which equals the searched string) and carries the source data
and the rewritten suggestion. -/
theorem hlNode_text_eq (find original suggestion s : String) (i : Nat)
    (hidx : firstIdx find.data s.data = some i) :
    hlNode find original suggestion (.text s) =
      some [ .text ⟨s.data.take i⟩,
             .mark original suggestion [.text find],
             .text ⟨s.data.drop (i + find.data.length)⟩ ] ∧
    find.data <+: s.data.drop i ∧
    (∀ j, j < i → ¬ find.data <+: s.data.drop j) := by
  obtain ⟨h1, h2⟩ := firstIdx_spec find.data s.data i hidx
  refine ⟨?_, h1, h2⟩
  obtain ⟨rest, hrest⟩ := h1
  have hmid : (s.data.drop i).take find.data.length = find.data := by
    rw [← hrest]
    exact List.take_left find.data rest
  unfold hlNode
  rw [hidx]
  show some [ ENode.text ⟨s.data.take i⟩,
      ENode.mark original suggestion [ENode.text ⟨(s.data.drop i).take find.data.length⟩],
      ENode.text ⟨s.data.drop (i + find.data.length)⟩ ] = _
  rw [hmid]

/-- C5 (amended): for every similarity match, when no single text node of
the draft contains original_sentence literally the match is silently
skipped — the editor is unchanged and zero highlighted regions are added
(even if the sentence occurs across node boundaries in the concatenated
text content); when some text node contains it, exactly one highlighted
region is added, the text content is unchanged, and the wrap happens in
the first hit-containing node (all earlier nodes have no hit), at the
first occurrence inside that node. -/
theorem highlight_spec (find original suggestion : String) (editor : List ENode) :
    (nodesHas find editor = false →
      highlightText find original suggestion editor = editor) ∧
    (nodesHas find editor = true →
      nodesText (highlightText find original suggestion editor) = nodesText editor ∧
      markCountNodes (highlightText find original suggestion editor) =
        markCountNodes editor + 1 ∧
      ∃ pre n post repl, editor = pre ++ n :: post ∧ nodesHas find pre = false ∧
        hlNode find original suggestion n = some repl ∧
        highlightText find original suggestion editor = pre ++ repl ++ post) := by
  constructor
  · intro h
    unfold highlightText
    rw [(hlNodes_none find original suggestion editor).mpr h]
    rfl
  · intro h
    cases hw : hlNodes find original suggestion editor with
    | none =>
      have := (hlNodes_none find original suggestion editor).mp hw
      rw [this] at h
      cases h
    | some ns2 =>
      have heval : highlightText find original suggestion editor = ns2 := by
        unfold highlightText
        rw [hw]
        rfl
      obtain ⟨ht, hm⟩ := hlNodes_some find original suggestion editor ns2 hw
      obtain ⟨pre, n, post, repl, heq, hpre, hn, hres⟩ :=
        hlNodes_decomp find original suggestion editor ns2 hw
      rw [heval]
      exact ⟨ht, hm, pre, n, post, repl, heq, hpre, hn, hres⟩

theorem highlight_spec_witness :
    highlightText "zz" "o" "s" [ENode.text "abcd"] = [ENode.text "abcd"] ∧
    nodesText (highlightText "bc" "o" "s" [ENode.text "abcd"]) = nodesText [ENode.text "abcd"] ∧
    markCountNodes (highlightText "bc" "o" "s" [ENode.text "abcd"]) = 1 := by
  have h1 := (highlight_spec "zz" "o" "s" [ENode.text "abcd"]).1 (by decide)
  have h2 := (highlight_spec "bc" "o" "s" [ENode.text "abcd"]).2 (by decide)
  exact ⟨h1, h2.1, h2.2.1⟩

/-- C5 counterexample: the sentence "bc" occurs literally in the draft
text content "abcd" of an editor made of two text nodes "ab" and "cd",
yet the match is skipped: no highlighted region is produced, because the
per-node indexOf never sees an occurrence spanning a node boundary. -/
theorem highlight_cross_node_counterexample :
    strIncludes (nodesText [ENode.text "ab", ENode.text "cd"]) "bc" = true ∧
    highlightText "bc" "o" "s" [ENode.text "ab", ENode.text "cd"] =
      [ENode.text "ab", ENode.text "cd"] ∧
    markCountNodes (highlightText "bc" "o" "s" [ENode.text "ab", ENode.text "cd"]) = 0 := by
  refine ⟨by decide, rfl, by decide⟩

-- --- Claim C7: accepting a proofreading suggestion ---

/-- C7: for a pending suggestion present at the clicked index, accepting
while its issue text does not occur in the draft leaves the draft
unchanged and only removes the suggestion from the pending list; when the
issue text does occur, accepting replaces exactly the first literal
occurrence with the suggestion text (marked distinctly by strong tags) and
removes the suggestion. -/
theorem suggestion_accept_spec (index : Nat) (suggestions : List Suggestion)
    (draftHtml : String) (sug : Suggestion)
    (hidx : suggestions[index]? = some sug) :
    ((¬ ∃ a b : String, draftHtml = a ++ sug.issue ++ b) →
      handleSuggestionClick true index suggestions draftHtml =
        (draftHtml, suggestions.eraseIdx index)) ∧
    ((∃ a b : String, draftHtml = a ++ sug.issue ++ b) →
      ∃ i, firstIdx sug.issue.data draftHtml.data = some i ∧
        sug.issue.data <+: draftHtml.data.drop i ∧
        (∀ j, j < i → ¬ sug.issue.data <+: draftHtml.data.drop j) ∧
        (handleSuggestionClick true index suggestions draftHtml).1.data =
          draftHtml.data.take i ++ ("<strong>" ++ sug.suggestion ++ "</strong>").data ++
            draftHtml.data.drop (i + sug.issue.data.length) ∧
        (handleSuggestionClick true index suggestions draftHtml).2 =
          suggestions.eraseIdx index) := by
  constructor
  · intro hno
    have hnone : firstIdx sug.issue.data draftHtml.data = none := by
      cases hf : firstIdx sug.issue.data draftHtml.data with
      | none => rfl
      | some i =>
        exfalso
        apply hno
        obtain ⟨hpre, _⟩ := firstIdx_spec sug.issue.data draftHtml.data i hf
        obtain ⟨hdec, _⟩ := prefix_drop_decomp hpre
        refine ⟨⟨draftHtml.data.take i⟩,
          ⟨draftHtml.data.drop (i + sug.issue.data.length)⟩, ?_⟩
        apply String.ext
        simpa [String.data_append] using hdec
    simp [handleSuggestionClick, hidx, replaceFirst, hnone]
  · rintro ⟨a, b, hab⟩
    have hsome : ∃ i, firstIdx sug.issue.data draftHtml.data = some i := by
      cases hf : firstIdx sug.issue.data draftHtml.data with
      | some i => exact ⟨i, rfl⟩
      | none =>
        exfalso
        apply firstIdx_none sug.issue.data draftHtml.data hf a.data.length
        rw [hab]
        simp only [String.data_append]
        rw [List.append_assoc, List.drop_left]
        exact List.prefix_append _ _
    obtain ⟨i, hf⟩ := hsome
    obtain ⟨hpre, hmin⟩ := firstIdx_spec sug.issue.data draftHtml.data i hf
    refine ⟨i, hf, hpre, hmin, ?_, ?_⟩
    · simp [handleSuggestionClick, hidx, replaceFirst, hf]
    · simp [handleSuggestionClick, hidx]

theorem suggestion_accept_spec_witness :
    handleSuggestionClick true 0 [⟨"Grammar", "teh", "the", "e"⟩] "clean text" =
      ("clean text", []) ∧
    (handleSuggestionClick true 0 [⟨"Grammar", "teh", "the", "e"⟩] "say teh word").1.data =
      "say teh word".data.take 4 ++ ("<strong>" ++ "the" ++ "</strong>").data ++
        "say teh word".data.drop (4 + "teh".data.length) ∧
    (handleSuggestionClick true 0 [⟨"Grammar", "teh", "the", "e"⟩] "say teh word").2 = [] := by
  have h1 := suggestion_accept_spec 0 [⟨"Grammar", "teh", "the", "e"⟩] "clean text"
    ⟨"Grammar", "teh", "the", "e"⟩ rfl
  have h2 := suggestion_accept_spec 0 [⟨"Grammar", "teh", "the", "e"⟩] "say teh word"
    ⟨"Grammar", "teh", "the", "e"⟩ rfl
  have habs : ¬ ∃ a b : String, "clean text" = a ++ "teh" ++ b := by
    rintro ⟨a, b, hab⟩
    have : strIncludes "clean text" "teh" = true :=
      (strIncludes_iff "clean text" "teh").mpr ⟨a, b, hab⟩
    exact absurd this (by decide)
  obtain ⟨i, hf, hpre, hmin, hdata, hlist⟩ :=
    h2.2 ⟨"say ", " word", by decide⟩
  have hi4 : i = 4 := by
    have h4 : firstIdx ("teh".data) ("say teh word".data) = some 4 := by decide
    rw [hf] at h4
    cases h4
    rfl
  subst hi4
  exact ⟨h1.1 habs, hdata, hlist⟩

end GraphRag

